import Mathlib

/-!
Verification of the interest-based paper-ranking core of the PaperPocket
repository (`app/src/components/PaperCard.tsx`): the vector similarity
primitive `cosineSimilarity` (lines 612-631) and the ranking pass
`scorePapers` of `usePaperRecommendations` (lines 642-703), together with
the `Paper` data shape from the shared types module.

Modelling conventions:
* JavaScript `number` arithmetic is modelled over `ℝ`; `Math.sqrt` is
  `Real.sqrt`.
* A function that can `throw` is modelled with `Except` / `Option`.
* The external embedding engine (`cactusLM.embed`, reached through
  `embedQuery` and `embedAndStorePaper`) is an oracle
  `embed : String → Option Vec`; `none` models a call that throws.
  Every call made to the engine is recorded in a trace (the list of
  texts sent), so that call counts can be stated.
* The stored-embedding cache fetched once by `storage.getEmbeddings()`
  is an oracle `stored : String → Option Vec` keyed by paper id; the
  code never re-reads it within one pass, which the model reflects.
* The `await`ed per-paper work of `papers.map` under `Promise.all` is
  modelled sequentially in input order; `Promise.all` preserves result
  order, which is all the ranking logic depends on.
* `scoredPapers.sort((a, b) => b.score - a.score)` is a stable sort by
  score descending (ECMAScript `Array.prototype.sort` is stable); it is
  modelled by `List.insertionSort` with the relation
  `rankLE a b ↔ b.score ≤ a.score`, which is a stable sort producing
  the same list.
-/

/-- A numeric vector (`number[]`). -/
abbrev Vec := List ℝ

/-- The error taxonomy of the similarity primitive: the only throw site
of `cosineSimilarity` is the vector-length check (`DimensionMismatch`
in the design document). -/
inductive SimError where
  | dimensionMismatch
deriving DecidableEq

/-- The running dot product `dotProduct += a[i] * b[i]` accumulated by
the loop of `cosineSimilarity` (for equal-length inputs). -/
def dotList (a b : Vec) : ℝ :=
  (List.zipWith (fun x y => x * y) a b).sum

/-- The running sum of squares `mag += v[i] * v[i]` accumulated by the
loop of `cosineSimilarity`. -/
def sumSq (v : Vec) : ℝ :=
  (v.map (fun x => x * x)).sum

/-- `cosineSimilarity` (PaperCard.tsx lines 612-631): throws when the
lengths differ, returns `0` when `Math.sqrt(magA) * Math.sqrt(magB)`
is zero, and otherwise returns `dotProduct / magnitude`. -/
noncomputable def cosineSimilarity (a b : Vec) : Except SimError ℝ :=
  if a.length ≠ b.length then
    .error .dimensionMismatch
  else
    let magnitude := Real.sqrt (sumSq a) * Real.sqrt (sumSq b)
    if magnitude = 0 then .ok 0
    else .ok (dotList a b / magnitude)

/- ### Basic facts about the sums -/

theorem sumSq_nonneg (v : Vec) : 0 ≤ sumSq v := by
  induction v with
  | nil => simp [sumSq]
  | cons x t ih =>
    have hx : 0 ≤ x * x := mul_self_nonneg x
    simpa [sumSq] using add_nonneg hx (by simpa [sumSq] using ih)

theorem sumSq_eq_zero_of_all_zero (v : Vec) (h : ∀ x ∈ v, x = 0) :
    sumSq v = 0 := by
  induction v with
  | nil => simp [sumSq]
  | cons x t ih =>
    have hx : x = 0 := h x (by simp)
    have ht : ∀ y ∈ t, y = 0 := fun y hy => h y (by simp [hy])
    simp [sumSq, hx]
    simpa [sumSq] using ih ht

theorem sumSq_pos_of_mem (v : Vec) (x : ℝ) (hx : x ∈ v) (hne : x ≠ 0) :
    0 < sumSq v := by
  induction v with
  | nil => simp at hx
  | cons y t ih =>
    have hyy : (0 : ℝ) ≤ y * y := mul_self_nonneg y
    rcases List.mem_cons.mp hx with h | h
    · have hpos : 0 < x * x := mul_self_pos.mpr hne
      have : sumSq (y :: t) = y * y + sumSq t := by simp [sumSq]
      rw [this, ← h]
      exact add_pos_of_pos_of_nonneg hpos (sumSq_nonneg t)
    · have : sumSq (y :: t) = y * y + sumSq t := by simp [sumSq]
      rw [this]
      exact add_pos_of_nonneg_of_pos hyy (ih h)

theorem dotList_self (v : Vec) : dotList v v = sumSq v := by
  induction v with
  | nil => simp [dotList, sumSq]
  | cons x t ih =>
    simp only [dotList, sumSq, List.zipWith_cons_cons, List.map_cons,
      List.sum_cons] at ih ⊢
    rw [ih]

/- ### C6: dimension mismatch -/

/-- C6: for any two vectors of unequal length, `cosineSimilarity` fails
with the `DimensionMismatch` error (it never truncates or pads). -/
theorem cosineSimilarity_dimensionMismatch (a b : Vec)
    (h : a.length ≠ b.length) :
    cosineSimilarity a b = .error .dimensionMismatch := by
  simp [cosineSimilarity, h]

/-- Witness for C6 at the concrete input `[1]`, `[]`. -/
theorem cosineSimilarity_dimensionMismatch_witness :
    cosineSimilarity [(1 : ℝ)] [] = .error .dimensionMismatch :=
  cosineSimilarity_dimensionMismatch [(1 : ℝ)] [] (by simp)

/- ### C7: zero-magnitude vectors -/

/-- C7 (amended): for a zero-magnitude vector paired with any vector of
the same length, `cosineSimilarity` returns `0` and raises no error;
the equal-length requirement is forced by the dimension check, which
runs first. -/
theorem cosineSimilarity_zero_vector (a b : Vec)
    (hlen : a.length = b.length) (h : ∀ x ∈ a, x = 0) :
    cosineSimilarity a b = .ok 0 := by
  have hz : sumSq a = 0 := sumSq_eq_zero_of_all_zero a h
  simp [cosineSimilarity, hlen, hz, Real.sqrt_zero]

/-- Counterexample to C7 as stated: the zero-magnitude vector `[0, 0]`
paired with `[1, 2, 3]` does not yield `0`; `cosineSimilarity` raises
the dimension-mismatch error because the length check precedes the
zero-magnitude policy. -/
theorem cosineSimilarity_zero_vector_counterexample :
    sumSq [(0 : ℝ), 0] = 0 ∧
    cosineSimilarity [(0 : ℝ), 0] [1, 2, 3] = .error .dimensionMismatch ∧
    (Except.error SimError.dimensionMismatch ≠ (Except.ok 0 : Except SimError ℝ)) := by
  refine ⟨by simp [sumSq], ?_, by simp⟩
  simp [cosineSimilarity]

/-- Witness for the amended C7 at `[0, 0]` against `[3, 4]`. -/
theorem cosineSimilarity_zero_vector_witness :
    cosineSimilarity [(0 : ℝ), 0] [3, 4] = .ok 0 :=
  cosineSimilarity_zero_vector [(0 : ℝ), 0] [3, 4] (by simp) (by simp)

/- ### C8: self-similarity of a non-zero vector -/

/-- C8: for every non-zero vector `v`, `cosineSimilarity v v` is
exactly `1` in the real-valued model (the floating-point tolerance of
the specification is not needed over `ℝ`). -/
theorem cosineSimilarity_self (v : Vec) (h : ∃ x ∈ v, x ≠ 0) :
    cosineSimilarity v v = .ok 1 := by
  obtain ⟨x, hx, hne⟩ := h
  have hS : 0 < sumSq v := sumSq_pos_of_mem v x hx hne
  have hSne : sumSq v ≠ 0 := ne_of_gt hS
  have hmag : Real.sqrt (sumSq v) * Real.sqrt (sumSq v) = sumSq v :=
    Real.mul_self_sqrt hS.le
  have hmagne : Real.sqrt (sumSq v) * Real.sqrt (sumSq v) ≠ 0 := by
    rw [hmag]; exact hSne
  simp [cosineSimilarity, hmagne, dotList_self, hmag, div_self hSne, hSne]

/-- Witness for C8 at the concrete vector `[1]`. -/
theorem cosineSimilarity_self_witness :
    cosineSimilarity [(1 : ℝ)] [(1 : ℝ)] = .ok 1 :=
  cosineSimilarity_self [(1 : ℝ)] ⟨1, by simp, one_ne_zero⟩

/- ### Cauchy-Schwarz for the list sums, and the upper bound on every
similarity value -/

theorem list_sum_eq_range_sum (l : List ℝ) :
    l.sum = ∑ i ∈ Finset.range l.length, l.getD i 0 := by
  induction l with
  | nil => simp
  | cons x t ih =>
    rw [List.sum_cons, ih, List.length_cons, Finset.sum_range_succ']
    simp [add_comm]

theorem dotList_eq_range_sum (a b : Vec) (h : a.length = b.length) :
    dotList a b = ∑ i ∈ Finset.range a.length, a.getD i 0 * b.getD i 0 := by
  induction a generalizing b with
  | nil => simp [dotList]
  | cons x t ih =>
    cases b with
    | nil => simp at h
    | cons y u =>
      have h' : t.length = u.length := by simpa using h
      rw [show dotList (x :: t) (y :: u) = x * y + dotList t u by
        simp [dotList]]
      rw [ih u h', List.length_cons, Finset.sum_range_succ']
      simp [add_comm]

theorem sumSq_eq_range_sum (v : Vec) :
    sumSq v = ∑ i ∈ Finset.range v.length, v.getD i 0 ^ 2 := by
  induction v with
  | nil => simp [sumSq]
  | cons x t ih =>
    rw [show sumSq (x :: t) = x * x + sumSq t by simp [sumSq]]
    rw [ih, List.length_cons, Finset.sum_range_succ']
    simp [add_comm, pow_two]

theorem dotList_le_sqrt_mul_sqrt (a b : Vec) (h : a.length = b.length) :
    dotList a b ≤ Real.sqrt (sumSq a) * Real.sqrt (sumSq b) := by
  rw [dotList_eq_range_sum a b h, sumSq_eq_range_sum a, sumSq_eq_range_sum b, ← h]
  exact Real.sum_mul_le_sqrt_mul_sqrt (Finset.range a.length)
    (fun i => a.getD i 0) (fun i => b.getD i 0)

theorem cosineSimilarity_le_one (a b : Vec) (s : ℝ)
    (h : cosineSimilarity a b = .ok s) : s ≤ 1 := by
  simp only [cosineSimilarity] at h
  split at h
  case isTrue => simp at h
  case isFalse hlen =>
    split at h
    case isTrue hz =>
      rw [Except.ok.injEq] at h
      rw [← h]
      norm_num
    case isFalse hz =>
      rw [Except.ok.injEq] at h
      push_neg at hlen
      have hmnn : 0 ≤ Real.sqrt (sumSq a) * Real.sqrt (sumSq b) :=
        mul_nonneg (Real.sqrt_nonneg _) (Real.sqrt_nonneg _)
      have hmpos : 0 < Real.sqrt (sumSq a) * Real.sqrt (sumSq b) :=
        lt_of_le_of_ne hmnn (Ne.symm hz)
      rw [← h]
      exact (div_le_one hmpos).mpr (dotList_le_sqrt_mul_sqrt a b hlen)

/- ### Data model of the ranking pass -/

/-- The `Paper` shape from the shared types module, restricted to the
fields the ranking pass reads or writes: `id` keys the embedding cache,
`title` and `abstract` form the text sent to the engine, and
`matchedInterest` / `similarityScore` are the optional computed/UI
annotation fields that every object spread carries along.  The
remaining display fields (authors, categories, URLs, dates, the unused
optional `embedding`) are carried unchanged by every spread and are
omitted. -/
structure Paper where
  id : String
  title : String
  abstract : String
  matchedInterest : Option String := none
  similarityScore : Option ℝ := none

/-- The result shape `Paper & (score, optional matchedInterest)` of the
ranking pass.  The object spreads copy every `Paper` field into `base`
(`matchedInterest` possibly overwritten, since the intersection type
merges it with the field already on `Paper`) and add `score`. -/
structure ScoredPaper where
  base : Paper
  score : ℝ

/-- The text representation sent to the engine for a paper by
`embedAndStorePaper`: title, then the string ". ", then abstract. -/
def embedKey (p : Paper) : String :=
  p.title ++ ". " ++ p.abstract

/-- Erase the one annotation field the ranking pass may rewrite; two
papers equal after `eraseAnn` differ at most in `matchedInterest`. -/
def eraseAnn (p : Paper) : Paper :=
  { p with matchedInterest := none }

/- ### The ranking pass -/

/-- The interest-resolution loop of `scorePapers` (lines 656-660): one
`embedQuery` call per element of `interests`, in input order, stopping
at the first failing call, whose exception aborts the whole `try`
block.  Returns the resolved interest/embedding pairs (`none` when a
call failed) together with the trace of texts sent to the engine. -/
def resolveInterests (embed : String → Option Vec) :
    List String → Option (List (String × Vec)) × List String
  | [] => (some [], [])
  | i :: rest =>
    match embed i with
    | none => (none, [i])
    | some e =>
      let r := resolveInterests embed rest
      (r.1.map (fun l => (i, e) :: l), i :: r.2)

/-- The best-match loop of `scorePapers` (lines 675-685): starting from
`bestScore = 0` and `bestInterest = undefined`, update both whenever
`similarity > bestScore` (strict, so the earliest interest attaining
the running maximum is kept).  A dimension mismatch raised by
`cosineSimilarity` escapes the loop and, in context, fails the whole
batch. -/
noncomputable def bestFold (pe : Vec) :
    List (String × Vec) → ℝ → Option String →
      Except SimError (ℝ × Option String)
  | [], b, bi => .ok (b, bi)
  | q :: rest, b, bi =>
    match cosineSimilarity pe q.2 with
    | .error err => .error err
    | .ok s =>
      if b < s then bestFold pe rest s (some q.1)
      else bestFold pe rest b bi

/-- The per-paper body of `scorePapers` (lines 664-692): look up the
cached embedding by `paper.id`; on a miss call the engine through
`embedAndStorePaper`, catching a failure of that call as `score: 0`
with the paper otherwise unchanged; with an embedding in hand run the
best-match loop and attach `score` and `matchedInterest`.  Returns the
scored paper (or the dimension-mismatch error that, in context, fails
the batch) with the trace of engine calls made for this paper. -/
noncomputable def scorePaper (iEmbs : List (String × Vec))
    (stored : String → Option Vec) (embed : String → Option Vec)
    (p : Paper) : Except SimError ScoredPaper × List String :=
  match stored p.id with
  | some pe =>
    (match bestFold pe iEmbs 0 none with
     | .error err => (.error err, [])
     | .ok (s, bi) =>
       (.ok { base := { p with matchedInterest := bi }, score := s }, []))
  | none =>
    match embed (embedKey p) with
    | none => (.ok { base := p, score := 0 }, [embedKey p])
    | some pe =>
      (match bestFold pe iEmbs 0 none with
       | .error err => (.error err, [embedKey p])
       | .ok (s, bi) =>
         (.ok { base := { p with matchedInterest := bi }, score := s },
          [embedKey p]))

/-- The `papers.map` under `Promise.all` (lines 663-693), modelled
sequentially in input order: one scored paper per input paper; a
dimension-mismatch error raised for any paper rejects the whole batch. -/
noncomputable def annotatePapers (iEmbs : List (String × Vec))
    (stored : String → Option Vec) (embed : String → Option Vec) :
    List Paper → Except SimError (List ScoredPaper) × List String
  | [] => (.ok [], [])
  | p :: rest =>
    match scorePaper iEmbs stored embed p with
    | (.error err, t) => (.error err, t)
    | (.ok sp, t) =>
      let r := annotatePapers iEmbs stored embed rest
      (r.1.map (fun l => sp :: l), t ++ r.2)

/-- The comparator `(a, b) => b.score - a.score` of the final sort
orders by score descending: `a` may precede `b` iff
`b.score ≤ a.score`. -/
def rankLE (a b : ScoredPaper) : Prop := b.score ≤ a.score

noncomputable instance : DecidableRel rankLE :=
  fun a b => Real.decidableLE b.score a.score

instance : IsTotal ScoredPaper rankLE :=
  ⟨fun a b => le_total b.score a.score⟩

instance : IsTrans ScoredPaper rankLE :=
  ⟨fun _ _ _ hab hbc => le_trans hbc hab⟩

/-- `scorePapers` (lines 642-703): the full ranking pass.  The first
component is the ranked list; the second is the trace of every text
sent to the embedding engine during the pass.  `isDownloaded` is the
readiness flag of the external model; `stored` is the embedding cache
snapshot fetched once by `storage.getEmbeddings()`.  The final
ECMAScript stable sort is modelled by `List.insertionSort rankLE`,
which is stable and sorts by score descending. -/
noncomputable def scorePapers (isDownloaded : Bool)
    (stored : String → Option Vec) (embed : String → Option Vec)
    (papers : List Paper) (interests : List String) :
    List ScoredPaper × List String :=
  if !isDownloaded || interests.isEmpty then
    (papers.map (fun p => { base := p, score := 0 }), [])
  else
    match resolveInterests embed interests with
    | (none, t) => (papers.map (fun p => { base := p, score := 0 }), t)
    | (some iEmbs, t) =>
      match annotatePapers iEmbs stored embed papers with
      | (.error _, t2) =>
        (papers.map (fun p => { base := p, score := 0 }), t ++ t2)
      | (.ok l, t2) => (List.insertionSort rankLE l, t ++ t2)

/- ### C3: the fallback path -/

/-- C3 (amended): with an empty interest list or a not-ready engine,
the pass returns every input paper in its original order with score
`0`, making no engine call; each paper's record — the
`matchedInterest` annotation included — is carried over unchanged from
the input, so the output has no matched interest exactly when the
input carried none. -/
theorem scorePapers_fallback (isDownloaded : Bool)
    (stored embed : String → Option Vec) (papers : List Paper)
    (interests : List String)
    (h : interests = [] ∨ isDownloaded = false) :
    scorePapers isDownloaded stored embed papers interests =
      (papers.map (fun p => { base := p, score := 0 }), []) := by
  rcases h with h | h
  · subst h; simp [scorePapers]
  · subst h; simp [scorePapers]

/-- Witness for the amended C3: a not-ready engine with a non-empty
interest list returns the single input paper with score `0`. -/
theorem scorePapers_fallback_witness :
    scorePapers false (fun _ => none) (fun _ => none)
      [{ id := "1", title := "t", abstract := "a" }] ["q"] =
    ([{ base := { id := "1", title := "t", abstract := "a" },
        score := 0 }], []) :=
  scorePapers_fallback false (fun _ => none) (fun _ => none)
    [{ id := "1", title := "t", abstract := "a" }] ["q"] (Or.inr rfl)

/-- Counterexample to C3 as stated: on the fallback path the object
spread keeps a pre-existing matched-interest annotation, so a paper
entering with annotation "x" leaves the pass still carrying a matched
interest, where the claim demands none. -/
theorem scorePapers_fallback_counterexample :
    ((scorePapers true (fun _ => none) (fun _ => none)
        [{ id := "1", title := "t", abstract := "a",
           matchedInterest := some "x" }] []).1.map
      (fun o => o.base.matchedInterest)) = [some "x"] ∧
    some "x" ≠ (none : Option String) := by
  refine ⟨?_, by simp⟩
  simp [scorePapers]

/- ### Facts about the best-match loop and the annotation pass -/

theorem bestFold_bounds (pe : Vec) (iEmbs : List (String × Vec)) (b : ℝ)
    (bi : Option String) (s : ℝ) (mi : Option String)
    (hb0 : 0 ≤ b) (hb1 : b ≤ 1)
    (h : bestFold pe iEmbs b bi = .ok (s, mi)) : 0 ≤ s ∧ s ≤ 1 := by
  induction iEmbs generalizing b bi with
  | nil =>
    unfold bestFold at h
    simp only [Except.ok.injEq, Prod.mk.injEq] at h
    obtain ⟨h1, _⟩ := h
    subst h1
    exact ⟨hb0, hb1⟩
  | cons q rest ih =>
    unfold bestFold at h
    cases hcs : cosineSimilarity pe q.2 with
    | error err => rw [hcs] at h; exact absurd h (by simp)
    | ok sim =>
      simp only [hcs] at h
      by_cases hlt : b < sim
      · rw [if_pos hlt] at h
        exact ih sim (some q.1) (le_trans hb0 hlt.le)
          (cosineSimilarity_le_one pe q.2 sim hcs) h
      · rw [if_neg hlt] at h
        exact ih b bi hb0 hb1 h

theorem scorePaper_base (iEmbs : List (String × Vec))
    (stored embed : String → Option Vec) (p : Paper) (sp : ScoredPaper)
    (t : List String)
    (h : scorePaper iEmbs stored embed p = (.ok sp, t)) :
    eraseAnn sp.base = eraseAnn p := by
  unfold scorePaper at h
  cases hst : stored p.id with
  | some pe =>
    simp only [hst] at h
    cases hbf : bestFold pe iEmbs 0 none with
    | error err => simp only [hbf] at h; exact absurd h (by simp)
    | ok r =>
      obtain ⟨s, bi⟩ := r
      simp only [hbf, Prod.mk.injEq, Except.ok.injEq] at h
      obtain ⟨h1, _⟩ := h
      subst h1
      simp [eraseAnn]
  | none =>
    simp only [hst] at h
    cases hem : embed (embedKey p) with
    | none =>
      simp only [hem, Prod.mk.injEq, Except.ok.injEq] at h
      obtain ⟨h1, _⟩ := h
      subst h1
      rfl
    | some pe =>
      simp only [hem] at h
      cases hbf : bestFold pe iEmbs 0 none with
      | error err => simp only [hbf] at h; exact absurd h (by simp)
      | ok r =>
        obtain ⟨s, bi⟩ := r
        simp only [hbf, Prod.mk.injEq, Except.ok.injEq] at h
        obtain ⟨h1, _⟩ := h
        subst h1
        simp [eraseAnn]

theorem scorePaper_score_bounds (iEmbs : List (String × Vec))
    (stored embed : String → Option Vec) (p : Paper) (sp : ScoredPaper)
    (t : List String)
    (h : scorePaper iEmbs stored embed p = (.ok sp, t)) :
    0 ≤ sp.score ∧ sp.score ≤ 1 := by
  unfold scorePaper at h
  cases hst : stored p.id with
  | some pe =>
    simp only [hst] at h
    cases hbf : bestFold pe iEmbs 0 none with
    | error err => simp only [hbf] at h; exact absurd h (by simp)
    | ok r =>
      obtain ⟨s, bi⟩ := r
      simp only [hbf, Prod.mk.injEq, Except.ok.injEq] at h
      obtain ⟨h1, _⟩ := h
      subst h1
      exact bestFold_bounds pe iEmbs 0 none s bi le_rfl zero_le_one hbf
  | none =>
    simp only [hst] at h
    cases hem : embed (embedKey p) with
    | none =>
      simp only [hem, Prod.mk.injEq, Except.ok.injEq] at h
      obtain ⟨h1, _⟩ := h
      subst h1
      exact ⟨le_rfl, zero_le_one⟩
    | some pe =>
      simp only [hem] at h
      cases hbf : bestFold pe iEmbs 0 none with
      | error err => simp only [hbf] at h; exact absurd h (by simp)
      | ok r =>
        obtain ⟨s, bi⟩ := r
        simp only [hbf, Prod.mk.injEq, Except.ok.injEq] at h
        obtain ⟨h1, _⟩ := h
        subst h1
        exact bestFold_bounds pe iEmbs 0 none s bi le_rfl zero_le_one hbf

theorem annotatePapers_ok_facts (iEmbs : List (String × Vec))
    (stored embed : String → Option Vec) (papers : List Paper)
    (l : List ScoredPaper) (t : List String)
    (h : annotatePapers iEmbs stored embed papers = (.ok l, t)) :
    l.map (fun o => eraseAnn o.base) = papers.map eraseAnn ∧
    ∀ o ∈ l, 0 ≤ o.score ∧ o.score ≤ 1 := by
  induction papers generalizing l t with
  | nil =>
    unfold annotatePapers at h
    simp only [Prod.mk.injEq, Except.ok.injEq] at h
    obtain ⟨h1, _⟩ := h
    subst h1
    simp
  | cons p rest ih =>
    unfold annotatePapers at h
    cases hsp : scorePaper iEmbs stored embed p with
    | mk e tp =>
      rw [hsp] at h
      cases e with
      | error err => simp at h
      | ok sp =>
        simp only at h
        cases hrest : annotatePapers iEmbs stored embed rest with
        | mk er tr =>
          rw [hrest] at h
          cases er with
          | error err => simp [Except.map] at h
          | ok lr =>
            simp only [Except.map, Prod.mk.injEq, Except.ok.injEq] at h
            obtain ⟨h1, _⟩ := h
            subst h1
            obtain ⟨ih1, ih2⟩ := ih lr tr hrest
            refine ⟨?_, ?_⟩
            · simp only [List.map_cons, ih1,
                scorePaper_base iEmbs stored embed p sp tp hsp]
            · intro o ho
              rcases List.mem_cons.mp ho with rfl | ho
              · exact scorePaper_score_bounds iEmbs stored embed p o tp hsp
              · exact ih2 o ho

/- ### Stability of the final sort -/

theorem filter_orderedInsert_pos {α : Type} (r : α → α → Prop)
    [DecidableRel r] (p : α → Bool) (a : α) (l : List α)
    (hpa : p a = true) (hall : ∀ b ∈ l, p b = true → r a b) :
    (List.orderedInsert r a l).filter p = a :: l.filter p := by
  induction l with
  | nil => simp [List.orderedInsert, hpa]
  | cons b t ih =>
    rw [List.orderedInsert]
    by_cases hr : r a b
    · rw [if_pos hr]
      simp [List.filter_cons, hpa]
    · rw [if_neg hr]
      have hpb : p b = false := by
        by_contra hc
        exact hr (hall b (by simp) (by simpa using hc))
      have ih2 := ih (fun c hc hpc => hall c (by simp [hc]) hpc)
      simp [List.filter_cons, hpb, ih2]

theorem filter_orderedInsert_neg {α : Type} (r : α → α → Prop)
    [DecidableRel r] (p : α → Bool) (a : α) (l : List α)
    (hpa : p a = false) :
    (List.orderedInsert r a l).filter p = l.filter p := by
  induction l with
  | nil => simp [List.orderedInsert, hpa]
  | cons b t ih =>
    rw [List.orderedInsert]
    by_cases hr : r a b
    · rw [if_pos hr]
      simp [List.filter_cons, hpa]
    · rw [if_neg hr]
      simp [List.filter_cons, ih]

theorem insertionSort_filter_stable {α : Type} (r : α → α → Prop)
    [DecidableRel r] (p : α → Bool)
    (hequiv : ∀ a b, p a = true → p b = true → r a b) (l : List α) :
    (List.insertionSort r l).filter p = l.filter p := by
  induction l with
  | nil => rfl
  | cons a t ih =>
    rw [List.insertionSort]
    cases hpa : p a with
    | false =>
      rw [filter_orderedInsert_neg r p a _ hpa, ih, List.filter_cons]
      simp [hpa]
    | true =>
      have hall : ∀ b ∈ List.insertionSort r t, p b = true → r a b :=
        fun b _ hpb => hequiv a b hpa hpb
      rw [filter_orderedInsert_pos r p a _ hpa hall, ih, List.filter_cons]
      simp [hpa]

theorem sortedZeroMap (l : List Paper) :
    List.Sorted rankLE
      (l.map (fun p => ({ base := p, score := 0 } : ScoredPaper))) := by
  induction l with
  | nil => simp [List.Sorted]
  | cons p t ih =>
    rw [List.map_cons]
    refine List.Pairwise.cons ?_ ih
    intro o ho
    rcases List.mem_map.mp ho with ⟨q, _, rfl⟩
    exact le_refl 0

/- ### C2, C9, C10: properties of the whole pass -/

theorem mapZero_stable (papers : List Paper) (s : ℝ) :
    List.Sublist
      (((papers.map (fun p => ({ base := p, score := 0 } : ScoredPaper))).filter
          (fun o => decide (o.score = s))).map (fun o => eraseAnn o.base))
      (papers.map eraseAnn) := by
  have h1 : List.Sublist
      ((papers.map (fun p => ({ base := p, score := 0 } : ScoredPaper))).filter
        (fun o => decide (o.score = s)))
      (papers.map (fun p => ({ base := p, score := 0 } : ScoredPaper))) :=
    List.filter_sublist _
  have h2 := h1.map (fun o => eraseAnn o.base)
  rw [List.map_map] at h2
  exact h2

theorem sortStable_sublist (l : List ScoredPaper) (papers : List Paper)
    (s : ℝ) (hbase : l.map (fun o => eraseAnn o.base) = papers.map eraseAnn) :
    List.Sublist
      (((List.insertionSort rankLE l).filter
          (fun o => decide (o.score = s))).map (fun o => eraseAnn o.base))
      (papers.map eraseAnn) := by
  have hequiv : ∀ a b : ScoredPaper,
      (fun o => decide (o.score = s)) a = true →
      (fun o => decide (o.score = s)) b = true → rankLE a b := by
    intro a b ha hb
    have ha2 : a.score = s := of_decide_eq_true ha
    have hb2 : b.score = s := of_decide_eq_true hb
    unfold rankLE
    rw [ha2, hb2]
  rw [insertionSort_filter_stable rankLE (fun o => decide (o.score = s))
    hequiv l]
  have h1 : List.Sublist (l.filter (fun o => decide (o.score = s))) l :=
    List.filter_sublist l
  have h2 := h1.map (fun o => eraseAnn o.base)
  rw [hbase] at h2
  exact h2

/-- C2: the output of the ranking pass is sorted by score descending
(`rankLE a b` means `b.score ≤ a.score`), and for every score value
the equal-score entries, with the rewritten annotation erased, form in
order a sublist of the input papers: equal-score entries keep their
relative input order (the stable-sort guarantee).  The pass is a pure
function of its inputs, so the output is reproducible for identical
inputs. -/
theorem scorePapers_sorted_and_stable (isDownloaded : Bool)
    (stored embed : String → Option Vec) (papers : List Paper)
    (interests : List String) :
    List.Sorted rankLE
      (scorePapers isDownloaded stored embed papers interests).1 ∧
    ∀ s : ℝ,
      List.Sublist
        (((scorePapers isDownloaded stored embed papers interests).1.filter
            (fun o => decide (o.score = s))).map (fun o => eraseAnn o.base))
        (papers.map eraseAnn) := by
  unfold scorePapers
  by_cases hif : (!isDownloaded || interests.isEmpty) = true
  · rw [if_pos hif]
    exact ⟨sortedZeroMap papers, fun s => mapZero_stable papers s⟩
  · rw [if_neg hif]
    rcases hres : resolveInterests embed interests with ⟨o, t⟩
    cases o with
    | none =>
      simp only [hres]
      exact ⟨sortedZeroMap papers, fun s => mapZero_stable papers s⟩
    | some iEmbs =>
      simp only [hres]
      rcases hann : annotatePapers iEmbs stored embed papers with ⟨e, t2⟩
      cases e with
      | error err =>
        simp only [hann]
        exact ⟨sortedZeroMap papers, fun s => mapZero_stable papers s⟩
      | ok l =>
        simp only [hann]
        refine ⟨List.sorted_insertionSort rankLE l, fun s => ?_⟩
        exact sortStable_sublist l papers s
          (annotatePapers_ok_facts iEmbs stored embed papers l t2 hann).1

/-- C9: every entry of the ranking output carries a score in `[0, 1]`
on every path: similarity values never exceed `1` (Cauchy-Schwarz),
the best-score accumulator starts at `0` and only ever increases, and
every degraded path substitutes `0`. -/
theorem scorePapers_score_in_unit_interval (isDownloaded : Bool)
    (stored embed : String → Option Vec) (papers : List Paper)
    (interests : List String) :
    ∀ o ∈ (scorePapers isDownloaded stored embed papers interests).1,
      0 ≤ o.score ∧ o.score ≤ 1 := by
  have hzero : ∀ o ∈ papers.map
      (fun p => ({ base := p, score := 0 } : ScoredPaper)),
      0 ≤ o.score ∧ o.score ≤ 1 := by
    intro o ho
    rcases List.mem_map.mp ho with ⟨q, _, rfl⟩
    exact ⟨le_rfl, zero_le_one⟩
  unfold scorePapers
  by_cases hif : (!isDownloaded || interests.isEmpty) = true
  · rw [if_pos hif]
    exact hzero
  · rw [if_neg hif]
    rcases hres : resolveInterests embed interests with ⟨o, t⟩
    cases o with
    | none => simp only [hres]; exact hzero
    | some iEmbs =>
      simp only [hres]
      rcases hann : annotatePapers iEmbs stored embed papers with ⟨e, t2⟩
      cases e with
      | error err => simp only [hann]; exact hzero
      | ok l =>
        simp only [hann]
        intro o ho
        have ho2 : o ∈ l :=
          ((List.perm_insertionSort rankLE l).mem_iff).mp ho
        exact (annotatePapers_ok_facts iEmbs stored embed papers l t2
          hann).2 o ho2

/-- C10: on every path — the not-ready/empty-interest fallback, a
per-paper embedding failure, the batch-level error handler, and the
normal path with its final sort — the output is exactly the input
papers: after erasing the one annotation the pass may rewrite, the
output bases are a permutation of the input papers, so the same ids
appear with the same multiplicity and all fields other than `score`
and `matchedInterest` are unchanged. -/
theorem scorePapers_output_is_input (isDownloaded : Bool)
    (stored embed : String → Option Vec) (papers : List Paper)
    (interests : List String) :
    ((scorePapers isDownloaded stored embed papers interests).1.map
        (fun o => eraseAnn o.base)).Perm (papers.map eraseAnn) := by
  unfold scorePapers
  by_cases hif : (!isDownloaded || interests.isEmpty) = true
  · rw [if_pos hif, List.map_map]
    exact List.Perm.refl _
  · rw [if_neg hif]
    rcases hres : resolveInterests embed interests with ⟨o, t⟩
    cases o with
    | none =>
      simp only [hres]
      rw [List.map_map]
      exact List.Perm.refl _
    | some iEmbs =>
      simp only [hres]
      rcases hann : annotatePapers iEmbs stored embed papers with ⟨e, t2⟩
      cases e with
      | error err =>
        simp only [hann]
        rw [List.map_map]
        exact List.Perm.refl _
      | ok l =>
        simp only [hann]
        have hperm :=
          (List.perm_insertionSort rankLE l).map (fun o => eraseAnn o.base)
        have hbase :=
          (annotatePapers_ok_facts iEmbs stored embed papers l t2 hann).1
        rw [hbase] at hperm
        exact hperm

/- ### C1: characterisation of the best-match loop -/

/-- The best-match loop stripped of the error monad: the pure fold over
the interest/similarity pairs, used to reason about `bestFold` once
every `cosineSimilarity` call is known to succeed. -/
noncomputable def runBest :
    List (String × ℝ) → ℝ → Option String → ℝ × Option String
  | [], b, bi => (b, bi)
  | r :: rest, b, bi =>
    if b < r.2 then runBest rest r.2 (some r.1) else runBest rest b bi

theorem runBest_nil (b : ℝ) (bi : Option String) :
    runBest [] b bi = (b, bi) := rfl

theorem runBest_cons (r : String × ℝ) (rest : List (String × ℝ)) (b : ℝ)
    (bi : Option String) :
    runBest (r :: rest) b bi =
      if b < r.2 then runBest rest r.2 (some r.1) else runBest rest b bi :=
  rfl

theorem bestFold_eq_runBest (pe : Vec) (iEmbs : List (String × Vec))
    (pairs : List (String × ℝ)) (b : ℝ) (bi : Option String)
    (halign : iEmbs.map (fun q => (q.1, cosineSimilarity pe q.2)) =
      pairs.map (fun r => (r.1, Except.ok r.2))) :
    bestFold pe iEmbs b bi = .ok (runBest pairs b bi) := by
  induction iEmbs generalizing pairs b bi with
  | nil =>
    cases pairs with
    | nil => rfl
    | cons r rrest => simp at halign
  | cons q qrest ih =>
    cases pairs with
    | nil => simp at halign
    | cons r rrest =>
      simp only [List.map_cons, List.cons.injEq, Prod.mk.injEq] at halign
      obtain ⟨⟨h1, h2⟩, h3⟩ := halign
      unfold bestFold
      rw [runBest_cons]
      simp only [h2, h1]
      by_cases hlt : b < r.2
      · rw [if_pos hlt, if_pos hlt]
        exact ih rrest r.2 (some r.1) h3
      · rw [if_neg hlt, if_neg hlt]
        exact ih rrest b bi h3

theorem runBest_fst (pairs : List (String × ℝ)) (b : ℝ) (bi : Option String) :
    (runBest pairs b bi).1 = pairs.foldl (fun x r => max x r.2) b := by
  induction pairs generalizing b bi with
  | nil => rfl
  | cons r rest ih =>
    rw [runBest_cons, List.foldl_cons]
    by_cases hlt : b < r.2
    · rw [if_pos hlt, ih]
      have hmx : max b r.2 = r.2 := max_eq_right hlt.le
      rw [hmx]
    · rw [if_neg hlt, ih]
      have hmx : max b r.2 = b := max_eq_left (le_of_not_lt hlt)
      rw [hmx]

theorem le_foldl_max (pairs : List (String × ℝ)) (b : ℝ) :
    b ≤ pairs.foldl (fun x r => max x r.2) b := by
  induction pairs generalizing b with
  | nil => exact le_rfl
  | cons r rest ih =>
    rw [List.foldl_cons]
    exact le_trans (le_max_left b r.2) (ih (max b r.2))

theorem foldl_max_le (pairs : List (String × ℝ)) (b M : ℝ)
    (hub : ∀ r ∈ pairs, r.2 ≤ M) :
    pairs.foldl (fun x r => max x r.2) b ≤ max b M := by
  induction pairs generalizing b with
  | nil => exact le_max_left b M
  | cons r rest ih =>
    rw [List.foldl_cons]
    have h1 := ih (max b r.2) (fun q hq => hub q (by simp [hq]))
    have h2 : max (max b r.2) M = max b M := by
      rw [max_assoc, max_eq_right (hub r (by simp))]
    exact le_of_le_of_eq h1 h2

theorem foldl_max_ge_mem (pairs : List (String × ℝ)) (q : String × ℝ)
    (b : ℝ) (hq : q ∈ pairs) :
    q.2 ≤ pairs.foldl (fun x r => max x r.2) b := by
  induction pairs generalizing b with
  | nil => simp at hq
  | cons r rest ih =>
    rw [List.foldl_cons]
    rcases List.mem_cons.mp hq with rfl | hq2
    · exact le_trans (le_max_right b q.2) (le_foldl_max rest (max b q.2))
    · exact ih (max b r.2) hq2

theorem foldl_max_eq (pairs : List (String × ℝ)) (b M : ℝ)
    (hub : ∀ r ∈ pairs, r.2 ≤ M) (hmem : ∃ r ∈ pairs, r.2 = M) :
    pairs.foldl (fun x r => max x r.2) b = max b M := by
  obtain ⟨q, hq, hqM⟩ := hmem
  refine le_antisymm (foldl_max_le pairs b M hub) ?_
  have h1 : b ≤ pairs.foldl (fun x r => max x r.2) b := le_foldl_max pairs b
  have h2 : M ≤ pairs.foldl (fun x r => max x r.2) b :=
    hqM ▸ foldl_max_ge_mem pairs q b hq
  exact max_le h1 h2

theorem runBest_snd_of_no_gain (pairs : List (String × ℝ)) (b : ℝ)
    (bi : Option String) (h : (runBest pairs b bi).1 = b) :
    (runBest pairs b bi).2 = bi := by
  induction pairs generalizing b bi with
  | nil => rfl
  | cons r rest ih =>
    by_cases hlt : b < r.2
    · exfalso
      rw [runBest_cons, if_pos hlt] at h
      have hge : r.2 ≤ (runBest rest r.2 (some r.1)).1 := by
        rw [runBest_fst]
        exact le_foldl_max rest r.2
      rw [h] at hge
      exact absurd hge (not_le_of_lt hlt)
    · rw [runBest_cons, if_neg hlt] at h ⊢
      exact ih b bi h

theorem runBest_argmax (pairs : List (String × ℝ)) (b : ℝ)
    (bi : Option String) (h : b < (runBest pairs b bi).1) :
    ∃ k, ∃ hk : k < pairs.length,
      (runBest pairs b bi).2 = some (pairs.get ⟨k, hk⟩).1 ∧
      (pairs.get ⟨k, hk⟩).2 = (runBest pairs b bi).1 ∧
      ∀ j, ∀ hj : j < pairs.length, j < k →
        (pairs.get ⟨j, hj⟩).2 < (runBest pairs b bi).1 := by
  induction pairs generalizing b bi with
  | nil =>
    rw [runBest_nil] at h
    exact absurd h (lt_irrefl b)
  | cons r rest ih =>
    by_cases hlt : b < r.2
    · rw [runBest_cons, if_pos hlt] at h ⊢
      by_cases hgain : r.2 < (runBest rest r.2 (some r.1)).1
      · obtain ⟨k, hk, h1, h2, h3⟩ := ih r.2 (some r.1) hgain
        refine ⟨k + 1, by simpa using Nat.succ_lt_succ hk, by simpa using h1,
          by simpa using h2, ?_⟩
        intro j hj hjk
        cases j with
        | zero => simpa using hgain
        | succ j2 =>
          have hj2 : j2 < rest.length := by simpa using hj
          have hj2k : j2 < k := Nat.lt_of_succ_lt_succ hjk
          simpa using h3 j2 hj2 hj2k
      · have hfst : (runBest rest r.2 (some r.1)).1 = r.2 := by
          have hge : r.2 ≤ (runBest rest r.2 (some r.1)).1 := by
            rw [runBest_fst]
            exact le_foldl_max rest r.2
          exact le_antisymm (le_of_not_lt hgain) hge
        have hsnd : (runBest rest r.2 (some r.1)).2 = some r.1 :=
          runBest_snd_of_no_gain rest r.2 (some r.1) hfst
        refine ⟨0, by simp, by simpa using hsnd,
          by simpa using hfst.symm, ?_⟩
        intro j hj hjk
        exact absurd hjk (Nat.not_lt_zero j)
    · rw [runBest_cons, if_neg hlt] at h ⊢
      obtain ⟨k, hk, h1, h2, h3⟩ := ih b bi h
      refine ⟨k + 1, by simpa using Nat.succ_lt_succ hk, by simpa using h1,
        by simpa using h2, ?_⟩
      intro j hj hjk
      cases j with
      | zero =>
        have hle : r.2 ≤ b := le_of_not_lt hlt
        simpa using lt_of_le_of_lt hle h
      | succ j2 =>
        have hj2 : j2 < rest.length := by simpa using hj
        have hj2k : j2 < k := Nat.lt_of_succ_lt_succ hjk
        simpa using h3 j2 hj2 hj2k

/-- C1 (amended): consider a paper whose embedding `pe` resolved, and
let `pairs` list each interest with its similarity against `pe`
(`halign` states that every `cosineSimilarity` call succeeds with
these values, in input order).  Let `M` be the maximum similarity.
The best-match loop returns score `max 0 M` — the maximum clamped to
`0`, not `M` itself, because the accumulator starts at `0` — and
matches the earliest interest whose similarity attains `M` when
`0 < M` (every strictly earlier interest scores strictly below `M`,
the claim's tie rule), while no interest at all is matched when
`M ≤ 0`. -/
theorem bestFold_best_match (pe : Vec) (iEmbs : List (String × Vec))
    (pairs : List (String × ℝ))
    (halign : iEmbs.map (fun q => (q.1, cosineSimilarity pe q.2)) =
      pairs.map (fun r => (r.1, Except.ok r.2)))
    (M : ℝ) (hub : ∀ r ∈ pairs, r.2 ≤ M) (hmem : ∃ r ∈ pairs, r.2 = M) :
    ∃ mi, bestFold pe iEmbs 0 none = .ok (max 0 M, mi) ∧
      (M ≤ 0 → mi = none) ∧
      (0 < M → ∃ k, ∃ hk : k < pairs.length,
        mi = some (pairs.get ⟨k, hk⟩).1 ∧
        (pairs.get ⟨k, hk⟩).2 = M ∧
        ∀ j, ∀ hj : j < pairs.length, j < k →
          (pairs.get ⟨j, hj⟩).2 < M) := by
  have hrun := bestFold_eq_runBest pe iEmbs pairs 0 none halign
  have hfst : (runBest pairs 0 none).1 = max 0 M := by
    rw [runBest_fst]
    exact foldl_max_eq pairs 0 M hub hmem
  refine ⟨(runBest pairs 0 none).2, ?_, ?_, ?_⟩
  · rw [hrun, ← hfst, Prod.mk.eta]
  · intro hM
    have h0 : max 0 M = 0 := max_eq_left hM
    exact runBest_snd_of_no_gain pairs 0 none (by rw [hfst, h0])
  · intro hM
    have hlt : 0 < (runBest pairs 0 none).1 := by
      rw [hfst]
      exact lt_max_of_lt_right hM
    obtain ⟨k, hk, h1, h2, h3⟩ := runBest_argmax pairs 0 none hlt
    refine ⟨k, hk, h1, ?_, ?_⟩
    · rw [h2, hfst, max_eq_right hM.le]
    · intro j hj hjk
      have hlt2 := h3 j hj hjk
      rwa [hfst, max_eq_right hM.le] at hlt2

/-- Counterexample to C1 as stated: with paper embedding `[1]` and the
single interest "a" embedded as `[-1]`, the only — hence maximum —
similarity is `-1`, but the loop returns score `0` and no matched
interest, where the claim demands score `-1` matched to "a". -/
theorem bestFold_counterexample :
    cosineSimilarity [(1 : ℝ)] [(-1 : ℝ)] = .ok (-1) ∧
    bestFold [(1 : ℝ)] [("a", [(-1 : ℝ)])] 0 none =
      .ok (0, (none : Option String)) ∧
    ¬((0 : ℝ) = -1) := by
  have hcs : cosineSimilarity [(1 : ℝ)] [(-1 : ℝ)] = .ok (-1) := by
    norm_num [cosineSimilarity, sumSq, dotList, Real.sqrt_one]
  refine ⟨hcs, ?_, by norm_num⟩
  unfold bestFold
  simp only [hcs]
  rw [if_neg (by norm_num)]
  rfl

/-- Witness for the amended C1 at paper embedding `[1]` with a single
interest "a" embedded as `[1]` (similarity `1`). -/
theorem bestFold_best_match_witness :
    bestFold [(1 : ℝ)] [("a", [(1 : ℝ)])] 0 none =
      .ok (max 0 1, some "a") := by
  have hcs : cosineSimilarity [(1 : ℝ)] [(1 : ℝ)] = .ok 1 := by
    norm_num [cosineSimilarity, sumSq, dotList, Real.sqrt_one]
  obtain ⟨mi, h1, h2, h3⟩ := bestFold_best_match [(1 : ℝ)]
    [("a", [(1 : ℝ)])] [("a", (1 : ℝ))] (by simp [hcs]) 1 (by simp)
    ⟨("a", 1), by simp, rfl⟩
  obtain ⟨k, hk, hmi, hsim, hfirst⟩ := h3 (by norm_num)
  have hk0 : k = 0 := Nat.lt_one_iff.mp (by simpa using hk)
  subst hk0
  rw [h1, hmi]
  rfl

/- ### C4: engine calls during interest resolution -/

/-- Lower-casing on the character list of a string (the kernel-friendly
equivalent of `String.toLower`), used only to state the claim's
case-insensitive comparison. -/
def lowerStr (s : String) : String :=
  ⟨s.data.map Char.toLower⟩

/-- The number of engine calls the specification predicts for interest
resolution, following its words: one per distinct interest, compared
case-insensitively by display name. -/
def specDistinctInterestCount (interests : List String) : Nat :=
  ((interests.map lowerStr).dedup).length

theorem resolveInterests_all_ok (embed : String → Option Vec)
    (interests : List String)
    (hok : ∀ i ∈ interests, (embed i).isSome = true) :
    (resolveInterests embed interests).2 = interests ∧
    (resolveInterests embed interests).1.isSome = true := by
  induction interests with
  | nil => exact ⟨rfl, rfl⟩
  | cons i rest ih =>
    have hi := hok i (by simp)
    cases hemb : embed i with
    | none => rw [hemb] at hi; simp at hi
    | some e =>
      obtain ⟨ih1, ih2⟩ := ih (fun j hj => hok j (by simp [hj]))
      unfold resolveInterests
      simp only [hemb]
      constructor
      · simpa using ih1
      · simpa using ih2

/-- C4 (amended): within one ranking pass the engine is called once
per occurrence of an interest in the input list — the code performs no
deduplication, case-insensitive or otherwise.  When every interest
call succeeds, the first `interests.length` texts sent to the engine
are exactly the interest list itself, duplicates included. -/
theorem scorePapers_interest_calls (stored embed : String → Option Vec)
    (papers : List Paper) (interests : List String)
    (hne : interests ≠ [])
    (hok : ∀ i ∈ interests, (embed i).isSome = true) :
    (scorePapers true stored embed papers interests).2.take
      interests.length = interests := by
  obtain ⟨htr, hsome⟩ := resolveInterests_all_ok embed interests hok
  unfold scorePapers
  rw [if_neg (by simpa using hne)]
  rcases hres : resolveInterests embed interests with ⟨o, t⟩
  cases o with
  | none => rw [hres] at hsome; simp at hsome
  | some iEmbs =>
    simp only [hres]
    have ht : t = interests := by
      rw [hres] at htr
      simpa using htr
    rcases hann : annotatePapers iEmbs stored embed papers with ⟨e, t2⟩
    cases e with
    | error err =>
      simp only [hann]
      rw [ht]
      exact List.take_left interests t2
    | ok l =>
      simp only [hann]
      rw [ht]
      exact List.take_left interests t2

/-- Witness for the amended C4: two identical interests produce two
engine calls, in order. -/
theorem scorePapers_interest_calls_witness :
    (scorePapers true (fun _ => none) (fun _ => some [1]) []
      ["ai", "ai"]).2.take (["ai", "ai"].length) = ["ai", "ai"] :=
  scorePapers_interest_calls (fun _ => none) (fun _ => some [1]) []
    ["ai", "ai"] (by simp) (fun i _ => rfl)

/-- Counterexample to C4 as stated: the interest list ["AI", "ai"]
holds one distinct name when compared case-insensitively, yet the pass
sends two engine calls — the duplicate causes an additional call. -/
theorem scorePapers_dedup_counterexample :
    (scorePapers true (fun _ => none) (fun _ => some [1]) []
      ["AI", "ai"]).2 = ["AI", "ai"] ∧
    specDistinctInterestCount ["AI", "ai"] = 1 ∧
    ¬((2 : Nat) = 1) ∧
    (scorePapers true (fun _ => none) (fun _ => some [1]) []
      ["AI", "ai"]).2.length = 2 := by
  refine ⟨rfl, by decide, by norm_num, rfl⟩

/- ### C5: isolation of a single embedding failure -/

theorem scorePaper_congr_embed (iEmbs : List (String × Vec))
    (stored embed1 embed2 : String → Option Vec) (q : Paper)
    (h : embed1 (embedKey q) = embed2 (embedKey q)) :
    scorePaper iEmbs stored embed1 q = scorePaper iEmbs stored embed2 q := by
  unfold scorePaper
  rw [h]

theorem annotatePapers_congr_embed (iEmbs : List (String × Vec))
    (stored embed1 embed2 : String → Option Vec) (papers : List Paper)
    (h : ∀ q ∈ papers, embed1 (embedKey q) = embed2 (embedKey q)) :
    annotatePapers iEmbs stored embed1 papers =
      annotatePapers iEmbs stored embed2 papers := by
  induction papers with
  | nil => rfl
  | cons q rest ih =>
    unfold annotatePapers
    rw [scorePaper_congr_embed iEmbs stored embed1 embed2 q (h q (by simp)),
      ih (fun r hr => h r (by simp [hr]))]

theorem scorePaper_fails (iEmbs : List (String × Vec))
    (stored embed : String → Option Vec) (p : Paper)
    (hmiss : stored p.id = none) (hfail : embed (embedKey p) = none) :
    scorePaper iEmbs stored embed p =
      (.ok { base := p, score := 0 }, [embedKey p]) := by
  unfold scorePaper
  simp only [hmiss, hfail]

theorem annotatePapers_isolated_failure (iEmbs : List (String × Vec))
    (stored embed1 embed2 : String → Option Vec) (p : Paper)
    (hmiss : stored p.id = none) (hfail : embed1 (embedKey p) = none)
    (hagree : ∀ s, s ≠ embedKey p → embed1 s = embed2 s) :
    ∀ (papers : List Paper) (i : Nat) (hi : i < papers.length),
      papers.get ⟨i, hi⟩ = p →
      (∀ j, ∀ hj : j < papers.length, j ≠ i →
        embedKey (papers.get ⟨j, hj⟩) ≠ embedKey p) →
      ∀ l2 t2,
        annotatePapers iEmbs stored embed2 papers = (.ok l2, t2) →
        ∃ t1, annotatePapers iEmbs stored embed1 papers =
          (.ok (l2.set i { base := p, score := 0 }), t1) := by
  intro papers
  induction papers with
  | nil =>
    intro i hi
    exact absurd hi (by simp)
  | cons q rest ih =>
    intro i hi hp hothers l2 t2 h2
    cases i with
    | zero =>
      have hq : q = p := by simpa using hp
      subst hq
      have hhead := scorePaper_fails iEmbs stored embed1 q hmiss hfail
      simp only [annotatePapers] at h2
      cases hsp2 : scorePaper iEmbs stored embed2 q with
      | mk e2 tp2 =>
        rw [hsp2] at h2
        cases e2 with
        | error err => simp at h2
        | ok sp2 =>
          simp only at h2
          cases hrest2 : annotatePapers iEmbs stored embed2 rest with
          | mk er2 tr2 =>
            rw [hrest2] at h2
            cases er2 with
            | error err => simp [Except.map] at h2
            | ok lr2 =>
              simp only [Except.map, Prod.mk.injEq, Except.ok.injEq] at h2
              obtain ⟨hl, _⟩ := h2
              have hresteq : annotatePapers iEmbs stored embed1 rest =
                  annotatePapers iEmbs stored embed2 rest := by
                apply annotatePapers_congr_embed
                intro r hr
                obtain ⟨j, hrj⟩ := List.mem_iff_get.mp hr
                subst hrj
                apply hagree
                have hne0 := hothers (j.val + 1)
                  (by simp) (by simp)
                simpa using hne0
              refine ⟨[embedKey q] ++ tr2, ?_⟩
              simp only [annotatePapers]
              rw [hhead, hresteq, hrest2, ← hl]
              rfl
    | succ i2 =>
      have hi2 : i2 < rest.length := by simpa using hi
      have hp2 : rest.get ⟨i2, hi2⟩ = p := by simpa using hp
      have hq : embedKey q ≠ embedKey p := by
        have h0 := hothers 0 (by simp) (by simp)
        simpa using h0
      have hqeq : embed1 (embedKey q) = embed2 (embedKey q) := hagree _ hq
      simp only [annotatePapers] at h2
      cases hsp2 : scorePaper iEmbs stored embed2 q with
      | mk e2 tp2 =>
        rw [hsp2] at h2
        cases e2 with
        | error err => simp at h2
        | ok sp2 =>
          simp only at h2
          cases hrest2 : annotatePapers iEmbs stored embed2 rest with
          | mk er2 tr2 =>
            rw [hrest2] at h2
            cases er2 with
            | error err => simp [Except.map] at h2
            | ok lr2 =>
              simp only [Except.map, Prod.mk.injEq, Except.ok.injEq] at h2
              obtain ⟨hl, _⟩ := h2
              have hothers2 : ∀ j, ∀ hj : j < rest.length, j ≠ i2 →
                  embedKey (rest.get ⟨j, hj⟩) ≠ embedKey p := by
                intro j hj hne2
                have hcc := hothers (j + 1)
                  (by simpa using Nat.succ_lt_succ hj)
                  (fun hvv => hne2 (by simpa using hvv))
                simpa using hcc
              obtain ⟨t1, hrec⟩ := ih i2 hi2 hp2 hothers2 lr2 tr2 hrest2
              refine ⟨tp2 ++ t1, ?_⟩
              simp only [annotatePapers]
              rw [scorePaper_congr_embed iEmbs stored embed1 embed2 q hqeq,
                hsp2, hrec, ← hl]
              rfl

/-- C5 (amended): if embedding resolution fails for exactly one paper
`p` during a ranking pass (cache miss and a failing engine call for
its text; every other paper and every interest resolves identically in
the failing and the non-failing run), then the annotated batch of the
failing run equals that of the non-failing run with only position `i`
replaced by `p` carrying score `0` and its matched-interest annotation
unchanged from the input — the claim's "no matched interest" holds
only when the input paper carries none — and `p` with score `0`
appears in the final ranked output; every other paper's score and
matched interest are exactly those it would have had without the
failure. -/
theorem scorePapers_isolated_failure
    (stored embed1 embed2 : String → Option Vec) (papers : List Paper)
    (interests : List String) (iEmbs : List (String × Vec))
    (tI : List String) (p : Paper) (i : Nat) (hi : i < papers.length)
    (hp : papers.get ⟨i, hi⟩ = p) (hne : interests ≠ [])
    (hIres : resolveInterests embed1 interests = (some iEmbs, tI))
    (hmiss : stored p.id = none) (hfail : embed1 (embedKey p) = none)
    (hagree : ∀ s, s ≠ embedKey p → embed1 s = embed2 s)
    (hothers : ∀ j, ∀ hj : j < papers.length, j ≠ i →
      embedKey (papers.get ⟨j, hj⟩) ≠ embedKey p)
    (l2 : List ScoredPaper) (t2 : List String)
    (h2 : annotatePapers iEmbs stored embed2 papers = (.ok l2, t2)) :
    (∃ t1, annotatePapers iEmbs stored embed1 papers =
      (.ok (l2.set i { base := p, score := 0 }), t1)) ∧
    ({ base := p, score := 0 } : ScoredPaper) ∈
      (scorePapers true stored embed1 papers interests).1 := by
  obtain ⟨t1, h1⟩ := annotatePapers_isolated_failure iEmbs stored embed1
    embed2 p hmiss hfail hagree papers i hi hp hothers l2 t2 h2
  refine ⟨⟨t1, h1⟩, ?_⟩
  have hlen : l2.length = papers.length := by
    have hmap := (annotatePapers_ok_facts iEmbs stored embed2 papers l2 t2
      h2).1
    have hlen2 := congrArg List.length hmap
    simpa using hlen2
  have hij : i < (l2.set i { base := p, score := 0 }).length := by
    simpa [hlen] using hi
  have hmem : ({ base := p, score := 0 } : ScoredPaper) ∈
      l2.set i { base := p, score := 0 } := by
    have h4 := List.get_mem (l2.set i { base := p, score := 0 }) i hij
    have h3 : (l2.set i { base := p, score := 0 }).get ⟨i, hij⟩ =
        { base := p, score := 0 } := by simp
    rwa [h3] at h4
  unfold scorePapers
  rw [if_neg (by simpa using hne)]
  simp only [hIres, h1]
  exact ((List.perm_insertionSort rankLE _).mem_iff).mpr hmem

/-- Counterexample to C5 as stated: the paper whose embedding fails
enters with annotation "x" and leaves the pass still carrying a
matched interest — the object spread of the per-paper catch keeps the
pre-existing annotation, where the claim demands none. -/
theorem scorePapers_failure_counterexample :
    ((scorePapers true (fun _ => none)
        (fun s => if s = "a" then some [1] else none)
        [{ id := "1", title := "t", abstract := "b",
           matchedInterest := some "x" }] ["a"]).1.map
      (fun o => o.base.matchedInterest)) = [some "x"] ∧
    some "x" ≠ (none : Option String) := by
  refine ⟨rfl, by simp⟩

/-- Witness for the amended C5: one paper, cache miss, engine failing
exactly on its text; the non-failing run scores it `1` against the
single interest "a", the failing run yields the paper unchanged with
score `0`, and that entry appears in the ranked output. -/
theorem scorePapers_isolated_failure_witness :
    (∃ t1, annotatePapers [("a", [(1 : ℝ)])] (fun _ => none)
        (fun s => if s = "t. b" then none else some [(1 : ℝ)])
        [{ id := "1", title := "t", abstract := "b" }] =
      (.ok ([({ base := { id := "1", title := "t", abstract := "b",
                          matchedInterest := some "a" },
                score := 1 } : ScoredPaper)].set 0
          { base := { id := "1", title := "t", abstract := "b" },
            score := 0 }), t1)) ∧
    ({ base := { id := "1", title := "t", abstract := "b" },
       score := 0 } : ScoredPaper) ∈
      (scorePapers true (fun _ => none)
        (fun s => if s = "t. b" then none else some [(1 : ℝ)])
        [{ id := "1", title := "t", abstract := "b" }] ["a"]).1 := by
  have hcs : cosineSimilarity [(1 : ℝ)] [(1 : ℝ)] = .ok 1 := by
    norm_num [cosineSimilarity, sumSq, dotList, Real.sqrt_one]
  have hbf : bestFold [(1 : ℝ)] [("a", [(1 : ℝ)])] 0 none =
      .ok (1, some "a") := by
    unfold bestFold
    simp only [hcs]
    rw [if_pos (by norm_num)]
    rfl
  have hsp : scorePaper [("a", [(1 : ℝ)])] (fun _ => none)
      (fun _ => some [(1 : ℝ)])
      { id := "1", title := "t", abstract := "b" } =
      (.ok { base := { id := "1", title := "t", abstract := "b",
                       matchedInterest := some "a" }, score := 1 },
       ["t. b"]) := by
    unfold scorePaper
    simp only [hbf]
    rfl
  have h2 : annotatePapers [("a", [(1 : ℝ)])] (fun _ => none)
      (fun _ => some [(1 : ℝ)])
      [{ id := "1", title := "t", abstract := "b" }] =
      (.ok [{ base := { id := "1", title := "t", abstract := "b",
                        matchedInterest := some "a" }, score := 1 }],
       ["t. b"]) := by
    simp only [annotatePapers]
    rw [hsp]
    rfl
  exact scorePapers_isolated_failure (fun _ => none)
    (fun s => if s = "t. b" then none else some [(1 : ℝ)])
    (fun _ => some [(1 : ℝ)])
    [{ id := "1", title := "t", abstract := "b" }] ["a"]
    [("a", [(1 : ℝ)])] ["a"]
    { id := "1", title := "t", abstract := "b" } 0 (by norm_num) rfl
    (by simp) rfl rfl rfl
    (fun s hs => if_neg (fun hc => hs (by rw [hc]; rfl)))
    (fun j hj hne2 => absurd (Nat.lt_one_iff.mp hj) hne2)
    [{ base := { id := "1", title := "t", abstract := "b",
                 matchedInterest := some "a" }, score := 1 }]
    ["t. b"] h2

/-- Witness for C9 at a concrete run: the single entry of a fallback
pass carries score `0`, which lies in the unit interval. -/
theorem scorePapers_score_in_unit_interval_witness :
    0 ≤ ({ base := { id := "1", title := "t", abstract := "a" },
           score := 0 } : ScoredPaper).score ∧
    ({ base := { id := "1", title := "t", abstract := "a" },
       score := 0 } : ScoredPaper).score ≤ 1 :=
  scorePapers_score_in_unit_interval false (fun _ => none) (fun _ => none)
    [{ id := "1", title := "t", abstract := "a" }] []
    { base := { id := "1", title := "t", abstract := "a" }, score := 0 }
    (by simp [scorePapers])
